import Mathlib

/-!
Verification of the sqltrans translation core (src/sqltrans/translate.py and
src/sqltrans/helpers.py) against its design specification.

The embedding is shallow:
* dialect identifiers are an arbitrary type with decidable equality
  (Python strings are only compared for equality by the code);
* Python dicts become association lists in insertion order (`alookup`,
  `aupdate`), since the code relies on dict insertion order for iteration;
* the unbounded recursion of `_find_edges` is modelled with an explicit
  fuel parameter: an outer `none` means the recursion exceeded the given
  fuel bound, so a result of `none` for every fuel is non-termination;
* Python exceptions become `Except` / `Option` results;
* sqlparse statements are external data, modelled by an abstract type `σ`,
  and the external parse / render capabilities are function parameters.
-/

set_option maxHeartbeats 1600000

namespace Sqltrans

/-- Association list lookup, modelling a Python dict lookup (`d[k]` and
`k in d`).  The first binding of a key wins, matching dict semantics in
which keys are unique. -/
def alookup {δ β : Type} [DecidableEq δ] : List (δ × β) → δ → Option β
  | [], _ => none
  | (k, v) :: rest, key => if k = key then some v else alookup rest key

/-- Association list update, modelling Python dict assignment `d[k] = v`:
an existing key keeps its position, a new key is appended at the end. -/
def aupdate {δ β : Type} [DecidableEq δ] : List (δ × β) → δ → β → List (δ × β)
  | [], k, v => [(k, v)]
  | (k', v') :: rest, k, v =>
    if k' = k then (k, v) :: rest else (k', v') :: aupdate rest k v

/-- Shallow embedding of `TranslationBase` and its two concrete subclasses
from translate.py: a plain `Translation` (lines 30-47) carries its
transformation as a function on statements, a `CompositeTranslation`
(lines 50-59) carries the list of its constituent translations.  Both
record their source and target dialect. -/
inductive TranslationB (δ σ : Type) where
  | single : δ → δ → (σ → σ) → TranslationB δ σ
  | composite : δ → δ → List (TranslationB δ σ) → TranslationB δ σ

/-- Modelled from the spec: `sqltrans.utils.chain_func` is imported by
translate.py but its module is not under src/.  Per spec section 4.4 a
composite applies its steps strictly in order, feeding each step's output
to the next step, i.e. a left fold of function application. -/
def chain_func {σ : Type} (s : σ) (fs : List (σ → σ)) : σ :=
  fs.foldl (fun acc f => f acc) s

/-- `Translation.translate` (translate.py line 46-47) applies the stored
transformation; `CompositeTranslation.translate` (lines 58-59) chains the
constituents' translate functions with `chain_func`. -/
def TranslationB.translate {δ σ : Type} : TranslationB δ σ → σ → σ
  | .single _ _ f, s => f s
  | .composite _ _ ts, s =>
    chain_func s (ts.attach.map (fun t => TranslationB.translate t.1))
termination_by t => sizeOf t
decreasing_by
  simp_wf
  have h := List.sizeOf_lt_of_mem t.2
  omega

/-- Registration conflict error.  The source raises a `ValueError`; the
spec names it `DuplicateTranslationError`. -/
inductive RegErr where
  | duplicate
deriving DecidableEq

/-- The nested registry `TranslationMapping` of translate.py lines 62-72:
a dict from source dialect to a dict from target dialect to a registered
translation. -/
def TransMapping (δ σ : Type) :=
  List (δ × List (δ × TranslationB δ σ))

/-- `TranslationMapping.register_translation` (translate.py lines 63-69):

    trans = self.setdefault(src, {})
    if tgt in trans and overwrite:
        raise ValueError(...)
    else:
        trans[tgt] = translation

Note that the guard tests `overwrite` itself, not `not overwrite`.  The
module level `register_translation` (lines 78-79) merely forwards the
translation's own dialects to this method. -/
def register_translation {δ σ : Type} [DecidableEq δ] (m : TransMapping δ σ)
    (src tgt : δ) (translation : TranslationB δ σ) (overwrite : Bool) :
    Except RegErr (TransMapping δ σ) :=
  let inner := (alookup m src).getD []
  if (alookup inner tgt).isSome && overwrite then
    .error .duplicate
  else
    .ok (aupdate m src (aupdate inner tgt translation))

/-- `TranslationMapping.get_translation` (translate.py lines 71-72):
`return self[src][tgt]`.  A missing key raises a `KeyError`, modelled as
`none`. -/
def get_translation {δ σ : Type} [DecidableEq δ] (m : TransMapping δ σ)
    (src tgt : δ) : Option (TranslationB δ σ) :=
  match alookup m src with
  | none => none
  | some inner => alookup inner tgt

/-- The adjacency structure that `_find_edges` sees when handed the
registry: `src in pairs` queries the outer dict and
`for neighbour in pairs[src]` iterates the inner dict's keys in
insertion order. -/
def Graph (δ : Type) : Type :=
  List (δ × List δ)

/-- The adjacency of a registry: outer keys map to their inner key lists. -/
def adj {δ σ : Type} (m : TransMapping δ σ) : Graph δ :=
  m.map (fun p => (p.1, p.2.map Prod.fst))

/-- Python's `keys = keys or [src]` at the top of `_find_edges`: a `None`
or empty keys list defaults to the singleton `[src]`. -/
def defKeys {δ : Type} (src : δ) (keys : List δ) : List δ :=
  if keys.isEmpty then [src] else keys

/-- One comparison step of Python's `min` under `key=len`: keep the
accumulator unless the next element is strictly shorter, so the first
minimum among ties wins, as `min` guarantees. -/
def minStep {δ : Type} (acc y : List δ) : List δ :=
  if y.length < acc.length then y else acc

/-- Python's `min(new_keys, key=lambda x: len(x)) if new_keys else None`:
the first element of minimal length, or `none` for an empty list. -/
def minByLenFirst {δ : Type} : List (List δ) → Option (List δ)
  | [] => none
  | c :: cs => some (cs.foldl minStep c)

/-- The list comprehension of `_find_edges` lines 87-88: the recursive
result (`rec n (keys ++ [n])` for the call `_find_edges(pairs, neighbour,
tgt, keys + [neighbour])`) for each neighbour in order, keeping only the
non-`None` ones; runs out of fuel (outer `none`) as soon as one
recursive call does. -/
def find_edges_children {δ : Type}
    (rec : δ → List δ → Option (Option (List δ))) (keys : List δ) :
    List δ → Option (List (List δ))
  | [] => some []
  | n :: rest =>
    match rec n (keys ++ [n]) with
    | none => none
    | some r =>
      match find_edges_children rec keys rest with
      | none => none
      | some cs => some (match r with | none => cs | some k => k :: cs)

/-- `_find_edges` (translate.py lines 82-92).  The Python function
recurses without any bound or visited set, so the embedding carries a
fuel parameter: an outer `none` means the recursion depth exceeded the
fuel, `some none` is Python's `None` (no path), and `some (some ks)` is a
returned list of dialect points.  Each recursive call in the source
consumes one unit of fuel. -/
def find_edges {δ : Type} [DecidableEq δ] :
    Nat → Graph δ → δ → δ → List δ → Option (Option (List δ))
  | 0, _, _, _, _ => none
  | fuel + 1, g, src, tgt, keys =>
    if src = tgt then some (some (defKeys src keys)) else
      match alookup g src with
      | none => some none
      | some ns =>
        match find_edges_children (fun n ks => find_edges fuel g n tgt ks)
            (defKeys src keys) ns with
        | none => none
        | some cands => some (minByLenFirst cands)

/-- `find_route` (translate.py lines 95-98):

    points = _find_edges(pairs, src, tgt)
    result = list(zip(points, points[1:])) if points else None

Again `none` is exhausted fuel; the inner option is the Python result,
where a falsy `points` (either `None` or an empty list) yields `None`. -/
def find_route {δ : Type} [DecidableEq δ] (fuel : Nat) (g : Graph δ)
    (src tgt : δ) : Option (Option (List (δ × δ))) :=
  match find_edges fuel g src tgt [] with
  | none => none
  | some none => some none
  | some (some []) => some none
  | some (some ps) => some (some (ps.zip ps.tail))

/-- Result of `find_translation`: Python returns `None`, raises a
`KeyError` out of `get_translation`, or returns a translation object. -/
inductive FindRes (δ σ : Type) where
  | notFound : FindRes δ σ
  | keyError : FindRes δ σ
  | found : TranslationB δ σ → FindRes δ σ

/-- The list comprehension of translate.py line 112: look up the
registered translation of every hop of a route, in route order. -/
def lookupRoute {δ σ : Type} [DecidableEq δ] (m : TransMapping δ σ) :
    List (δ × δ) → Option (List (TranslationB δ σ))
  | [] => some []
  | (s, t) :: rest =>
    match get_translation m s t with
    | none => none
    | some tr =>
      match lookupRoute m rest with
      | none => none
      | some trs => some (tr :: trs)

/-- `find_translation` (translate.py lines 101-114).  The route is
computed by `find_route` over the registry itself; `if not route` treats
both `None` and the empty route as not found; a one-hop route returns the
registered translation unwrapped; a longer route builds a
`CompositeTranslation` over the hops' translations.  Outer `none` is
exhausted fuel. -/
def find_translation {δ σ : Type} [DecidableEq δ] (fuel : Nat)
    (src tgt : δ) (m : TransMapping δ σ) : Option (FindRes δ σ) :=
  match find_route fuel (adj m) src tgt with
  | none => none
  | some none => some .notFound
  | some (some []) => some .notFound
  | some (some [(s, t)]) =>
    match get_translation m s t with
    | none => some .keyError
    | some tr => some (.found tr)
  | some (some route) =>
    match lookupRoute m route with
    | none => some .keyError
    | some trs => some (.found (.composite src tgt trs))

/-- Errors surfaced by `translate`: `TranslationNotFoundException` from
translate.py line 175, or a `KeyError` escaping `get_translation`. -/
inductive TransErr where
  | notFound
  | keyError
deriving DecidableEq

/-- Python's convention of returning either a single value or a list
(translate.py lines 183-184, with `ensure_list=False`). -/
inductive OneOrList (α : Type) where
  | one : α → OneOrList α
  | many : List α → OneOrList α
deriving DecidableEq

/-- Lines 183-184 of translate.py: a singleton result list is unwrapped. -/
def pyUnwrap {α : Type} : List α → OneOrList α
  | [r] => .one r
  | rs => .many rs

/-- `translate` (translate.py lines 160-185), with the default
`as_parsed=False, ensure_list=False`.  The external parser and renderer
(sqlparse, out of scope per the spec) are the `parse` and `render`
parameters.  `translation or find_translation(...)` short-circuits: a
supplied translation object is always truthy, so the route search runs
only when the argument is `None`.  Outer `none` is exhausted fuel of the
route search. -/
def translate {δ σ : Type} [DecidableEq δ] (fuel : Nat)
    (parse : String → List σ) (render : σ → String) (sql : String)
    (src tgt : δ) (m : TransMapping δ σ)
    (translation : Option (TranslationB δ σ)) :
    Option (Except TransErr (OneOrList String)) :=
  let tRes : Option (Except TransErr (Option (TranslationB δ σ))) :=
    match translation with
    | some t => some (.ok (some t))
    | none =>
      match find_translation fuel src tgt m with
      | none => none
      | some .notFound => some (.ok none)
      | some .keyError => some (.error .keyError)
      | some (.found t) => some (.ok (some t))
  match tRes with
  | none => none
  | some (.error e) => some (.error e)
  | some (.ok none) => some (.error .notFound)
  | some (.ok (some t)) =>
    let parsed := parse sql
    let translated := parsed.map (fun stmt => t.translate stmt)
    let result := translated.map render
    some (.ok (pyUnwrap result))

/-- `build_translation` (translate.py lines 117-157) assembles a
`Translation` whose transformation is a `CompositeTransformation` of two
transformations: first a `StatementTransformationRunner` over the global
rules, then a `RecursiveTransformationRunner` over the local rules.  The
module `sqltrans.transform` is not under src/, so the two runners'
semantics are parameters (`runStatement`, `runRecursive`) mapping a rule
list to a statement transformer, and the composite transformation is
modelled from the spec (section 4.4: steps apply in order) as
`chain_func` over the listed transformations.  The `None` defaulting of
the rule lists (lines 126-127) is kept. -/
def build_translation {δ σ ρ : Type}
    (runStatement runRecursive : List ρ → σ → σ)
    (src tgt : δ)
    (global_rules local_rules : Option (List ρ)) : TranslationB δ σ :=
  let g := match global_rules with | none => [] | some gs => gs
  let l := match local_rules with | none => [] | some ls => ls
  TranslationB.single src tgt
    (fun s => chain_func s [runStatement g, runRecursive l])

/-- The tree world `replace_token` operates in: tokens and containers are
identified by numeric ids (Python object identity); `containers` maps a
container id to the ordered ids of its token slots, `parents` maps a
token id to its recorded parent container id. -/
structure World where
  containers : List (Nat × List Nat)
  parents : List (Nat × Nat)
deriving DecidableEq

/-- Modelled from the spec: `get_token_idx` is imported from
`sqltrans.search`, which is not under src/.  Spec section 4.2: `indexOf`
recovers a node's position within its recorded parent, failing
(`NotFoundError`) when the parent no longer contains the node. -/
def get_token_idx (w : World) (tok : Nat) : Option Nat :=
  match alookup w.parents tok with
  | none => none
  | some c =>
    match alookup w.containers c with
    | none => none
    | some toks => toks.indexOf? tok

/-- `replace_token` (helpers.py lines 32-36):

    idx = get_token_idx(old)
    parent = old.parent
    parent.tokens[idx] = new
    new.parent = parent

The slot of the parent container is overwritten and the new token's
parent pointer is set; the old token's parent entry is not touched. -/
def replace_token (w : World) (old new : Nat) : Option World :=
  match get_token_idx w old with
  | none => none
  | some idx =>
    match alookup w.parents old with
    | none => none
    | some parent =>
      match alookup w.containers parent with
      | none => none
      | some toks =>
        some { containers := aupdate w.containers parent (toks.set idx new),
               parents := aupdate w.parents new parent }

/-! Concrete example translations, registries and graphs (dialects and
statements are numbered). -/

/-- A translation from dialect 0 to dialect 1 with the identity rules. -/
def t01 : TranslationB Nat Nat := .single 0 1 (fun n => n)

/-- A second, different translation for the pair (0, 1). -/
def t01x : TranslationB Nat Nat := .single 0 1 (fun n => n + 1)

/-- A translation from dialect 1 to dialect 2. -/
def t12 : TranslationB Nat Nat := .single 1 2 (fun n => n)

/-- A translation from dialect 1 back to dialect 0. -/
def t10 : TranslationB Nat Nat := .single 1 0 (fun n => n)

/-- A registry holding only the single translation 0 → 1. -/
def reg1 : TransMapping Nat Nat := [(0, [(1, t01)])]

/-- A registry holding the chain 0 → 1 → 2. -/
def reg2 : TransMapping Nat Nat := [(0, [(1, t01)]), (1, [(2, t12)])]

/-- A registry whose adjacency is the cycle 0 → 1, 1 → 0. -/
def cycM : TransMapping Nat Nat := [(0, [(1, t01)]), (1, [(0, t10)])]

/-- The cyclic graph 0 → 1, 1 → 0 (the adjacency of `cycM`). -/
def cycG : Graph Nat := [(0, [1]), (1, [0])]

/-- The diamond graph 0 → 1, 1 → 2, 0 → 3, 3 → 2 of the spec's route
minimality property (dialects A, B, C, D numbered 0, 1, 2, 3). -/
def diaG : Graph Nat := [(0, [1, 3]), (1, [2]), (3, [2])]

/-- A rank certificate for the diamond graph's acyclicity. -/
def diaRank : Nat → Nat :=
  fun a => if a = 0 then 2 else if a = 2 then 0 else 1

/-- A directed edge of the search graph: b is among the registered
targets of a. -/
def edgeOf {δ : Type} [DecidableEq δ] (g : Graph δ) (a b : δ) : Prop :=
  ∃ ns, alookup g a = some ns ∧ b ∈ ns

/-- A walk through the graph from a to c: the list holds the successive
nodes after a, each consecutive pair joined by a registered edge, the
last node being c.  Its length is the walk's number of hops. -/
inductive Walk {δ : Type} [DecidableEq δ] (g : Graph δ) : δ → δ → List δ → Prop where
  | nil : ∀ a, Walk g a a []
  | cons : ∀ {a b c : δ} {t : List δ},
      edgeOf g a b → Walk g b c t → Walk g a c (b :: t)

/-- A chain of edges starting at a node, without a prescribed endpoint:
exactly the branches `_find_edges` recurses along. -/
inductive Chain {δ : Type} [DecidableEq δ] (g : Graph δ) : δ → List δ → Prop where
  | nil : ∀ a, Chain g a []
  | cons : ∀ {a b : δ} {t : List δ},
      edgeOf g a b → Chain g b t → Chain g a (b :: t)

/-- Executable acyclicity certificate: a rank function strictly
decreasing along every edge of the graph.  A graph with finitely many
edges admits such a function exactly when it has no directed cycle. -/
def rankOk {δ : Type} (f : δ → Nat) (g : Graph δ) : Bool :=
  g.all (fun p => p.2.all (fun b => decide (f b < f p.1)))

/-- Sequential application of translation steps as the spec words it:
each step receives the previous step's output statement. -/
def applyStepsInSequence {δ σ : Type} : List (TranslationB δ σ) → σ → σ
  | [], s => s
  | t :: ts, s => applyStepsInSequence ts (t.translate s)

/-- A concrete tree world: one container (id 0) holding the two tokens
10 and 11, both recording it as their parent. -/
def w0 : World := ⟨[(0, [10, 11])], [(10, 0), (11, 0)]⟩

/-- The world `replace_token w0 10 20` produces: slot 0 now holds token
20, token 20 records parent 0 — and token 10 still records parent 0. -/
def w0r : World := ⟨[(0, [20, 11])], [(10, 0), (11, 0), (20, 0)]⟩

/-- C1.  The spec says registering over an existing (source, target)
entry raises with `overwrite=false` and replaces with `overwrite=true`.
The code's guard `if tgt in trans and overwrite` is inverted: on the
registry already holding an entry for (0, 1), `overwrite=false` silently
replaces the entry and `overwrite=true` raises — the exact opposite, and
contradicting the error message's own advice to pass `overwrite=True` in
order to overwrite. -/
theorem register_translation_flag_inverted :
    register_translation reg1 0 1 t01x false = .ok [(0, [(1, t01x)])] ∧
    register_translation reg1 0 1 t01x true = .error .duplicate :=
  ⟨rfl, rfl⟩

/-- On the cyclic graph, the search from either node for target 2
exhausts every fuel bound: `_find_edges` revisits node 0 and node 1
forever. -/
theorem find_edges_cycle_exhausts :
    ∀ fuel keys, find_edges fuel cycG 0 2 keys = none
               ∧ find_edges fuel cycG 1 2 keys = none := by
  intro fuel
  induction fuel with
  | zero => exact fun _ => ⟨rfl, rfl⟩
  | succ n ih =>
    intro keys
    constructor
    · have h : find_edges n [(0, [1]), (1, [0])] 1 2 (defKeys 0 keys ++ [1])
          = none := (ih (defKeys 0 keys ++ [1])).2
      simp [find_edges, find_edges_children, cycG, alookup, h]
    · have h : find_edges n [(0, [1]), (1, [0])] 0 2 (defKeys 1 keys ++ [0])
          = none := (ih (defKeys 1 keys ++ [0])).1
      simp [find_edges, find_edges_children, cycG, alookup, h]

/-- C2.  The claim (and the spec) demand that the route search terminate
on cyclic graphs, returning none for an unreachable target.  The code
has no visited set: on the graph 0 → 1, 1 → 0 the search for target 2
recurses forever — no fuel bound ever suffices, so `find_route` never
returns at all (in Python, a `RecursionError`), rather than terminating
with `None`. -/
theorem find_route_cycle_diverges :
    ∀ fuel, find_route fuel cycG 0 2 = none := by
  intro fuel
  have h := (find_edges_cycle_exhausts fuel []).1
  simp [find_route, h]

/-- C4.  The claim (and the spec) say a source-equals-target lookup
yields the empty zero-hop route and is never treated as "not found".
`find_route` does return the empty route `[]`, but `find_translation`'s
`if not route` collapses the falsy empty list into the not-found case,
so `translate` raises `TranslationNotFoundError` for every same-dialect
request that does not supply a translation, whatever is registered. -/
theorem translate_self_dialect_raises {δ σ : Type} [DecidableEq δ] :
    ∀ (fuel : Nat) (parse : String → List σ) (render : σ → String)
      (sql : String) (d : δ) (m : TransMapping δ σ),
      find_route (fuel + 1) (adj m) d d = some (some []) ∧
      translate (fuel + 1) parse render sql d d m none
        = some (.error .notFound) := by
  intro fuel parse render sql d m
  have hroute : find_route (fuel + 1) (adj m) d d = some (some []) := by
    simp [find_route, find_edges, defKeys]
  refine ⟨hroute, ?_⟩
  simp [translate, find_translation, hroute]

/-- C7.  `build_translation` composes exactly two transformations, the
statement-level runner over the global rules first and the recursive
runner over the local rules second, so the recursive rules observe the
statement-level output.  The runners' semantics are parameters since the
transform module is not under src/. -/
theorem build_translation_statement_pass_first {δ σ ρ : Type} :
    ∀ (runStatement runRecursive : List ρ → σ → σ) (src tgt : δ)
      (global_rules local_rules : Option (List ρ)) (stmt : σ),
      (build_translation runStatement runRecursive src tgt global_rules
          local_rules).translate stmt
        = runRecursive (local_rules.getD [])
            (runStatement (global_rules.getD []) stmt) := by
  intro S R src tgt g l stmt
  cases g <;> cases l <;>
    simp [build_translation, TranslationB.translate, chain_func]

/-- C10.  When a translation object is supplied, `translation or
find_translation(...)` short-circuits: the route search is bypassed, no
`TranslationNotFoundError` can arise, and the result is exactly the
supplied translation applied to each parsed statement and rendered,
regardless of the registry's contents. -/
theorem translate_supplied_translation_bypasses_route
    {δ σ : Type} [DecidableEq δ] :
    ∀ (fuel : Nat) (parse : String → List σ) (render : σ → String)
      (sql : String) (src tgt : δ) (m : TransMapping δ σ)
      (t : TranslationB δ σ),
      translate fuel parse render sql src tgt m (some t)
        = some (.ok (pyUnwrap ((parse sql).map
            (fun stmt => render (t.translate stmt))))) ∧
      ∀ e, translate fuel parse render sql src tgt m (some t)
        ≠ some (.error e) := by
  intro fuel parse render sql src tgt m t
  have h1 : translate fuel parse render sql src tgt m (some t)
      = some (.ok (pyUnwrap ((parse sql).map
          (fun stmt => render (t.translate stmt))))) := by
    simp [translate, List.map_map, Function.comp_def]
  refine ⟨h1, fun e h => ?_⟩
  rw [h1] at h
  simp at h

/-! Helper lemmas about the association list operations. -/

/-- Looking up the key just updated returns the new value. -/
theorem alookup_aupdate_self {δ β : Type} [DecidableEq δ] :
    ∀ (l : List (δ × β)) (k : δ) (v : β),
      alookup (aupdate l k v) k = some v := by
  intro l k v
  induction l with
  | nil => simp [aupdate, alookup]
  | cons p rest ih =>
    obtain ⟨k', v'⟩ := p
    by_cases h : k' = k
    · subst h; simp [aupdate, alookup]
    · simp [aupdate, alookup, h, ih]

/-- Updating one key leaves every other key's lookup unchanged. -/
theorem alookup_aupdate_other {δ β : Type} [DecidableEq δ] :
    ∀ (l : List (δ × β)) (k : δ) (v : β) (k' : δ), k' ≠ k →
      alookup (aupdate l k v) k' = alookup l k' := by
  intro l k v k' hne
  have hkk' : ¬ k = k' := fun h => hne h.symm
  induction l with
  | nil => simp [aupdate, alookup, if_neg hkk']
  | cons p rest ih =>
    obtain ⟨a, b⟩ := p
    by_cases h : a = k
    · subst h
      simp only [aupdate, if_pos rfl, alookup, if_neg hkk']
    · simp only [aupdate, if_neg h, alookup]
      by_cases h' : a = k'
      · simp [h']
      · simp [h', ih]

/-- A successful lookup pinpoints a binding of the list. -/
theorem alookup_mem {δ β : Type} [DecidableEq δ] :
    ∀ (l : List (δ × β)) (k : δ) (v : β),
      alookup l k = some v → (k, v) ∈ l := by
  intro l k v h
  induction l with
  | nil => simp [alookup] at h
  | cons p rest ih =>
    obtain ⟨a, b⟩ := p
    by_cases ha : a = k
    · subst ha
      simp [alookup] at h
      subst h
      exact List.mem_cons_self _ _
    · simp only [alookup, if_neg ha] at h
      exact List.mem_cons_of_mem _ (ih h)

/-! Helper lemmas about ranks, chains and walks. -/

/-- A rank certificate strictly decreases along every edge. -/
theorem rank_lt_of_edge {δ : Type} [DecidableEq δ] {f : δ → Nat}
    {g : Graph δ} (hok : rankOk f g = true) {a b : δ}
    (h : edgeOf g a b) : f b < f a := by
  obtain ⟨ns, hl, hb⟩ := h
  have hmem := alookup_mem g a ns hl
  rw [rankOk, List.all_eq_true] at hok
  have h2 := hok _ hmem
  rw [List.all_eq_true] at h2
  exact of_decide_eq_true (h2 _ hb)

/-- Under a rank certificate, every chain from a node is no longer than
the node's rank — in particular all chains are finite. -/
theorem chain_length_le_rank {δ : Type} [DecidableEq δ] {f : δ → Nat}
    {g : Graph δ} (hok : rankOk f g = true) :
    ∀ {a : δ} {t : List δ}, Chain g a t → t.length ≤ f a := by
  intro a t h
  induction h with
  | nil => simp
  | cons e _ ih =>
    have hlt := rank_lt_of_edge hok e
    simp only [List.length_cons]
    omega

/-- A walk is in particular a chain. -/
theorem chain_of_walk {δ : Type} [DecidableEq δ] {g : Graph δ} :
    ∀ {a c : δ} {t : List δ}, Walk g a c t → Chain g a t := by
  intro a c t h
  induction h with
  | nil => exact .nil _
  | cons e _ ih => exact .cons e ih

/-! Helper lemmas about the Python min under the length key. -/

/-- The fold underlying `minByLenFirst` yields the accumulator or a list
element. -/
theorem foldl_minStep_mem {δ : Type} :
    ∀ (cs : List (List δ)) (acc : List δ),
      cs.foldl minStep acc = acc ∨ cs.foldl minStep acc ∈ cs := by
  intro cs
  induction cs with
  | nil => exact fun _ => Or.inl rfl
  | cons c rest ih =>
    intro acc
    simp only [List.foldl_cons]
    rcases ih (minStep acc c) with h | h
    · rw [h, minStep]
      by_cases hc : c.length < acc.length
      · right; simp [hc]
      · left; simp [hc]
    · right; exact List.mem_cons_of_mem _ h

/-- The fold underlying `minByLenFirst` is no longer than the
accumulator and no longer than any list element. -/
theorem foldl_minStep_le {δ : Type} :
    ∀ (cs : List (List δ)) (acc : List δ),
      (cs.foldl minStep acc).length ≤ acc.length ∧
      ∀ c ∈ cs, (cs.foldl minStep acc).length ≤ c.length := by
  intro cs
  induction cs with
  | nil => exact fun _ => ⟨Nat.le_refl _, by simp⟩
  | cons c rest ih =>
    intro acc
    obtain ⟨h1, h2⟩ := ih (minStep acc c)
    have hacc : (minStep acc c).length ≤ acc.length := by
      rw [minStep]; split <;> omega
    have hc : (minStep acc c).length ≤ c.length := by
      rw [minStep]; split <;> omega
    refine ⟨Nat.le_trans h1 hacc, ?_⟩
    intro c' hc'
    rcases List.mem_cons.mp hc' with rfl | hmem
    · exact Nat.le_trans h1 hc
    · exact h2 c' hmem

/-- A result of `minByLenFirst` is an element of the candidate list. -/
theorem minByLenFirst_mem {δ : Type} :
    ∀ (cs : List (List δ)) (r : List δ),
      minByLenFirst cs = some r → r ∈ cs := by
  intro cs r h
  cases cs with
  | nil => simp [minByLenFirst] at h
  | cons c rest =>
    simp only [minByLenFirst, Option.some.injEq] at h
    subst h
    rcases foldl_minStep_mem rest c with h | h
    · rw [h]; exact List.mem_cons_self _ _
    · exact List.mem_cons_of_mem _ h

/-- A result of `minByLenFirst` has minimal length among the
candidates. -/
theorem minByLenFirst_le {δ : Type} :
    ∀ (cs : List (List δ)) (r : List δ), minByLenFirst cs = some r →
      ∀ c ∈ cs, r.length ≤ c.length := by
  intro cs r h c hc
  cases cs with
  | nil => simp [minByLenFirst] at h
  | cons c0 rest =>
    simp only [minByLenFirst, Option.some.injEq] at h
    subst h
    obtain ⟨h1, h2⟩ := foldl_minStep_le rest c0
    rcases List.mem_cons.mp hc with rfl | hmem
    · exact h1
    · exact h2 c hmem

/-- `minByLenFirst` returns `none` only on the empty candidate list. -/
theorem minByLenFirst_eq_none {δ : Type} :
    ∀ (cs : List (List δ)), minByLenFirst cs = none → cs = [] := by
  intro cs h
  cases cs with
  | nil => rfl
  | cons c rest => simp [minByLenFirst] at h

/-! Helper lemmas about the neighbour loop of `_find_edges`. -/

/-- What a successful neighbour loop returns: every candidate comes from
some neighbour's recursive call, and every neighbour's recursive call
returned (without exhausting fuel), its non-`None` result being among
the candidates. -/
theorem find_edges_children_spec {δ : Type}
    (rec : δ → List δ → Option (Option (List δ))) (keys : List δ) :
    ∀ (ns : List δ) (cands : List (List δ)),
      find_edges_children rec keys ns = some cands →
      (∀ c ∈ cands, ∃ n ∈ ns, rec n (keys ++ [n]) = some (some c)) ∧
      (∀ n ∈ ns, ∃ rn, rec n (keys ++ [n]) = some rn ∧
        ∀ c, rn = some c → c ∈ cands) := by
  intro ns
  induction ns with
  | nil =>
    intro cands h
    simp only [find_edges_children, Option.some.injEq] at h
    subst h
    simp
  | cons n rest ih =>
    intro cands h
    simp only [find_edges_children] at h
    cases hr : rec n (keys ++ [n]) with
    | none => rw [hr] at h; simp at h
    | some r =>
      rw [hr] at h
      cases hc : find_edges_children rec keys rest with
      | none => rw [hc] at h; simp at h
      | some cs =>
        rw [hc] at h
        obtain ⟨h1, h2⟩ := ih cs hc
        cases r with
        | none =>
          simp only [Option.some.injEq] at h
          subst h
          constructor
          · intro c hcmem
            obtain ⟨n', hn', hr'⟩ := h1 c hcmem
            exact ⟨n', List.mem_cons_of_mem _ hn', hr'⟩
          · intro n' hn'
            rcases List.mem_cons.mp hn' with rfl | hmem
            · exact ⟨none, hr, by simp⟩
            · exact h2 n' hmem
        | some k =>
          simp only [Option.some.injEq] at h
          subst h
          constructor
          · intro c hcmem
            rcases List.mem_cons.mp hcmem with rfl | hmem
            · exact ⟨n, List.mem_cons_self _ _, hr⟩
            · obtain ⟨n', hn', hr'⟩ := h1 c hmem
              exact ⟨n', List.mem_cons_of_mem _ hn', hr'⟩
          · intro n' hn'
            rcases List.mem_cons.mp hn' with rfl | hmem
            · refine ⟨some k, hr, ?_⟩
              intro c hck
              cases hck
              exact List.mem_cons_self _ _
            · obtain ⟨rn, hrn, himp⟩ := h2 n' hmem
              exact ⟨rn, hrn, fun c hck => List.mem_cons_of_mem _ (himp c hck)⟩

/-- The neighbour loop returns (does not exhaust fuel) as soon as every
neighbour's recursive call does. -/
theorem find_edges_children_total {δ : Type}
    (rec : δ → List δ → Option (Option (List δ))) (keys : List δ) :
    ∀ ns, (∀ n ∈ ns, rec n (keys ++ [n]) ≠ none) →
      find_edges_children rec keys ns ≠ none := by
  intro ns
  induction ns with
  | nil => intro _ h; simp [find_edges_children] at h
  | cons n rest ih =>
    intro hall h
    have hn := hall n (List.mem_cons_self _ _)
    obtain ⟨rn, hrn⟩ := Option.ne_none_iff_exists'.mp hn
    have hrest := ih (fun n' hn' => hall n' (List.mem_cons_of_mem _ hn'))
    obtain ⟨cs, hcs⟩ := Option.ne_none_iff_exists'.mp hrest
    rw [find_edges_children, hrn, hcs] at h
    cases rn <;> simp at h

/-- The defining equation of `find_edges` at positive fuel, stated for
rewriting. -/
theorem find_edges_succ {δ : Type} [DecidableEq δ] (n : Nat) (g : Graph δ)
    (src tgt : δ) (keys : List δ) :
    find_edges (n + 1) g src tgt keys
      = if src = tgt then some (some (defKeys src keys)) else
          match alookup g src with
          | none => some none
          | some ns =>
            match find_edges_children (fun b ks => find_edges n g b tgt ks)
                (defKeys src keys) ns with
            | none => none
            | some cands => some (minByLenFirst cands) := rfl

/-- What a returning `_find_edges` call means.  Whenever the search
returns without exhausting its fuel: (i) a returned point list is the
accumulated keys followed by a walk from src to tgt; (ii) a `None`
result means no walk from src to tgt exists at all; (iii) a returned
point list is no longer than the accumulated keys followed by any walk
from src to tgt — it is a shortest path. -/
theorem find_edges_spec {δ : Type} [DecidableEq δ] (g : Graph δ) (tgt : δ) :
    ∀ (fuel : Nat) (src : δ) (keys : List δ) (r : Option (List δ)),
      find_edges fuel g src tgt keys = some r →
      ((∀ p, r = some p → ∃ t, p = defKeys src keys ++ t ∧ Walk g src tgt t) ∧
       (r = none → ∀ t, ¬ Walk g src tgt t) ∧
       (∀ p t, r = some p → Walk g src tgt t →
         p.length ≤ (defKeys src keys).length + t.length)) := by
  intro fuel
  induction fuel with
  | zero => intro src keys r h; simp [find_edges] at h
  | succ n ih =>
    intro src keys r h
    simp only [find_edges] at h
    by_cases hst : src = tgt
    · subst hst
      rw [if_pos rfl] at h
      injection h with h1
      subst h1
      refine ⟨?_, ?_, ?_⟩
      · intro p hp
        injection hp with hp
        subst hp
        exact ⟨[], by simp, Walk.nil src⟩
      · intro hnone; cases hnone
      · intro p t hp _
        injection hp with hp
        subst hp
        exact Nat.le_add_right _ _
    · rw [if_neg hst] at h
      cases halt : alookup g src with
      | none =>
        rw [halt] at h
        injection h with h1
        subst h1
        refine ⟨?_, ?_, ?_⟩
        · intro p hp; cases hp
        · intro _ t hw
          cases hw with
          | nil => exact hst rfl
          | cons e hw' =>
            obtain ⟨ns, hl, _⟩ := e
            rw [halt] at hl
            cases hl
        · intro p t hp _; cases hp
      | some ns =>
        rw [halt] at h
        simp only [] at h
        cases hch : find_edges_children (fun n' ks => find_edges n g n' tgt ks)
            (defKeys src keys) ns with
        | none => rw [hch] at h; cases h
        | some cands =>
          rw [hch] at h
          injection h with h1
          subst h1
          obtain ⟨hforward, hbackward⟩ :=
            find_edges_children_spec _ _ ns cands hch
          refine ⟨?_, ?_, ?_⟩
          · intro p hp
            have hpc := minByLenFirst_mem cands p hp
            obtain ⟨b, hbmem, hrec⟩ := hforward p hpc
            obtain ⟨t', hpt', hw'⟩ :=
              (ih b (defKeys src keys ++ [b]) (some p) hrec).1 p rfl
            have hdk : defKeys b (defKeys src keys ++ [b])
                = defKeys src keys ++ [b] := by simp [defKeys]
            rw [hdk] at hpt'
            refine ⟨b :: t', ?_, Walk.cons ⟨ns, halt, hbmem⟩ hw'⟩
            rw [hpt']
            simp
          · intro hr t hw
            have hcands := minByLenFirst_eq_none cands hr
            subst hcands
            cases hw with
            | nil => exact hst rfl
            | cons e hw' =>
              rename_i b t'
              obtain ⟨ns', hl', hb'⟩ := e
              rw [halt] at hl'
              injection hl' with hns
              subst hns
              obtain ⟨rb, hrb, himp⟩ := hbackward b hb'
              cases rb with
              | some c => exact absurd (himp c rfl) (List.not_mem_nil c)
              | none =>
                exact (ih b (defKeys src keys ++ [b]) none hrb).2.1 rfl t' hw'
          · intro p t hp hw
            have hple := minByLenFirst_le cands p hp
            cases hw with
            | nil => exact absurd rfl hst
            | cons e hw' =>
              rename_i b t'
              obtain ⟨ns', hl', hb'⟩ := e
              rw [halt] at hl'
              injection hl' with hns
              subst hns
              obtain ⟨rb, hrb, himp⟩ := hbackward b hb'
              cases rb with
              | none =>
                exact absurd hw'
                  ((ih b (defKeys src keys ++ [b]) none hrb).2.1 rfl t')
              | some c =>
                have h1 := hple c (himp c rfl)
                have h2 := (ih b (defKeys src keys ++ [b]) (some c) hrb).2.2
                  c t' rfl hw'
                have hdk : (defKeys b (defKeys src keys ++ [b])).length
                    = (defKeys src keys).length + 1 := by simp [defKeys]
                rw [hdk] at h2
                simp only [List.length_cons]
                omega

/-- Fuel adequacy: when every chain out of src has length at most B, a
fuel of B + 1 is enough for `_find_edges` to return. -/
theorem find_edges_adequate {δ : Type} [DecidableEq δ] (g : Graph δ)
    (tgt : δ) :
    ∀ (B : Nat) (src : δ) (keys : List δ),
      (∀ t, Chain g src t → t.length ≤ B) →
      find_edges (B + 1) g src tgt keys ≠ none := by
  intro B
  induction B with
  | zero =>
    intro src keys hbound h
    simp only [find_edges] at h
    by_cases hst : src = tgt
    · rw [if_pos hst] at h; cases h
    · rw [if_neg hst] at h
      cases halt : alookup g src with
      | none => rw [halt] at h; cases h
      | some ns =>
        rw [halt] at h
        simp only [] at h
        have hns : ns = [] := by
          cases ns with
          | nil => rfl
          | cons b rest =>
            exfalso
            have hc : Chain g src [b] :=
              .cons ⟨_, halt, List.mem_cons_self _ _⟩ (.nil b)
            have hlen := hbound [b] hc
            simp at hlen
        subst hns
        simp only [find_edges_children] at h
        cases h
  | succ B ih =>
    intro src keys hbound h
    by_cases hst : src = tgt
    · rw [find_edges_succ, if_pos hst] at h; cases h
    · cases halt : alookup g src with
      | none =>
        have heval : find_edges (B + 1 + 1) g src tgt keys = some none := by
          rw [find_edges_succ, if_neg hst, halt]
        rw [heval] at h
        cases h
      | some ns =>
        have hrec : ∀ n ∈ ns,
            find_edges (B + 1) g n tgt (defKeys src keys ++ [n]) ≠ none := by
          intro n hn
          apply ih
          intro t hchain
          have hc : Chain g src (n :: t) := .cons ⟨ns, halt, hn⟩ hchain
          have hlen := hbound _ hc
          simp only [List.length_cons] at hlen
          omega
        have hch := find_edges_children_total
          (fun n' ks => find_edges (B + 1) g n' tgt ks)
          (defKeys src keys) ns hrec
        obtain ⟨cs, hcs⟩ := Option.ne_none_iff_exists'.mp hch
        have heval : find_edges (B + 1 + 1) g src tgt keys
            = some (minByLenFirst cs) := by
          rw [find_edges_succ, if_neg hst, halt]
          show (match find_edges_children
              (fun b ks => find_edges (B + 1) g b tgt ks)
              (defKeys src keys) ns with
            | none => none
            | some cands => some (minByLenFirst cands)) = some (minByLenFirst cs)
          rw [hcs]
        rw [heval] at h
        cases h

/-- C3.  On every acyclic graph (acyclicity witnessed by a rank
certificate) in which the target is reachable from the source, the
route search terminates — some finite fuel, i.e. recursion depth,
suffices — and returns a route whose hop count equals the length of
some walk from source to target and is minimal over all such walks. -/
theorem find_route_minimal_on_acyclic {δ : Type} [DecidableEq δ] :
    ∀ (g : Graph δ) (src tgt : δ) (f : δ → Nat),
      rankOk f g = true →
      (∃ t0, Walk g src tgt t0) →
      ∃ fuel route, find_route fuel g src tgt = some (some route) ∧
        (∃ t, Walk g src tgt t ∧ route.length = t.length) ∧
        (∀ t', Walk g src tgt t' → route.length ≤ t'.length) := by
  intro g src tgt f hok hreach
  have hbound : ∀ t, Chain g src t → t.length ≤ f src :=
    fun t hc => chain_length_le_rank hok hc
  have hne := find_edges_adequate g tgt (f src) src [] hbound
  obtain ⟨r, hr⟩ := Option.ne_none_iff_exists'.mp hne
  obtain ⟨ha, hb, hc⟩ := find_edges_spec g tgt (f src + 1) src [] r hr
  cases r with
  | none =>
    obtain ⟨t0, hw0⟩ := hreach
    exact absurd hw0 (hb rfl t0)
  | some p =>
    obtain ⟨t, hpt, hw⟩ := ha p rfl
    have hp' : p = src :: t := by simpa [defKeys] using hpt
    subst hp'
    refine ⟨f src + 1, (src :: t).zip t, ?_, ⟨t, hw, ?_⟩, ?_⟩
    · simp [find_route, hr]
    · rw [List.length_zip]
      simp only [List.length_cons]
      omega
    · intro t' hw'
      have hlen := hc (src :: t) t' rfl hw'
      have hdk : (defKeys src ([] : List δ)).length = 1 := by simp [defKeys]
      rw [hdk] at hlen
      rw [List.length_zip]
      simp only [List.length_cons] at hlen ⊢
      omega

/-- C3 witness: the diamond graph 0 → 1 → 2, 0 → 3 → 2 is acyclic with
2 reachable from 0, so the theorem applies; concretely the search
returns the two-hop route via dialect 1. -/
theorem find_route_minimal_on_acyclic_witness :
    (∃ fuel route, find_route fuel diaG 0 2 = some (some route) ∧
      (∃ t, Walk diaG 0 2 t ∧ route.length = t.length) ∧
      (∀ t', Walk diaG 0 2 t' → route.length ≤ t'.length)) ∧
    find_route 3 diaG 0 2 = some (some [(0, 1), (1, 2)]) :=
  ⟨find_route_minimal_on_acyclic diaG 0 2 diaRank (by decide)
      ⟨[1, 2], Walk.cons ⟨[1, 3], rfl, by decide⟩
        (Walk.cons ⟨[2], rfl, by decide⟩ (Walk.nil 2))⟩,
   rfl⟩

/-- C5 counterexample: in the world `w0` the container 0 holds token 10;
`replace_token w0 10 20` succeeds, yet the old token 10 still records
parent 0 afterwards — its parent reference is not cleared, contrary to
the claim. -/
theorem replace_token_does_not_clear_old_parent :
    replace_token w0 10 20 = some w0r ∧
    alookup w0r.parents 10 = some 0 ∧
    ¬ alookup w0r.parents 10 = none :=
  ⟨rfl, rfl, by decide⟩

/-- C5 amended: a successful `replace_token old new` overwrites slot idx
of the recorded parent with new and sets new's parent to that container,
but it leaves old's parent reference pointing at the container — the
reference is not cleared. -/
theorem replace_token_amended {w : World} {old new parent idx : Nat}
    {toks : List Nat}
    (hpar : alookup w.parents old = some parent)
    (htoks : alookup w.containers parent = some toks)
    (hidx : toks.indexOf? old = some idx)
    (hnew : new ≠ old) :
    ∃ w', replace_token w old new = some w' ∧
      alookup w'.containers parent = some (toks.set idx new) ∧
      alookup w'.parents new = some parent ∧
      alookup w'.parents old = some parent := by
  have hget : get_token_idx w old = some idx := by
    simp only [get_token_idx, hpar, htoks, hidx]
  refine ⟨⟨aupdate w.containers parent (toks.set idx new),
           aupdate w.parents new parent⟩, ?_, ?_, ?_, ?_⟩
  · simp only [replace_token, hget, hpar, htoks]
  · exact alookup_aupdate_self _ _ _
  · exact alookup_aupdate_self _ _ _
  · rw [show (⟨aupdate w.containers parent (toks.set idx new),
        aupdate w.parents new parent⟩ : World).parents
        = aupdate w.parents new parent from rfl]
    rw [alookup_aupdate_other _ _ _ _ (fun h => hnew h.symm)]
    exact hpar

/-- C5 witness: the amended statement applied to the concrete world
`w0`, replacing token 10 by token 20 inside container 0. -/
theorem replace_token_amended_witness :
    ∃ w', replace_token w0 10 20 = some w' ∧
      alookup w'.containers 0 = some ([10, 11].set 0 20) ∧
      alookup w'.parents 20 = some 0 ∧
      alookup w'.parents 10 = some 0 :=
  replace_token_amended rfl rfl rfl (by decide)

/-- Every edge of the cyclic graph leads to node 0 or node 1. -/
theorem edge_cycG {a b : Nat} (h : edgeOf cycG a b) : b = 0 ∨ b = 1 := by
  obtain ⟨ns, hl, hb⟩ := h
  have hG : cycG = [(0, [1]), (1, [0])] := rfl
  rw [hG] at hl
  simp only [alookup] at hl
  split at hl
  · injection hl with h1
    subst h1
    simp at hb
    right; exact hb
  · split at hl
    · injection hl with h1
      subst h1
      simp at hb
      left; exact hb
    · cases hl

/-- A walk in the cyclic graph starting at node 0 or 1 ends at node 0
or 1. -/
theorem walk_cycG_ends :
    ∀ {a c : Nat} {t : List Nat}, Walk cycG a c t →
      (a = 0 ∨ a = 1) → (c = 0 ∨ c = 1) := by
  intro a c t h
  induction h with
  | nil => exact id
  | cons e _ ih => exact fun _ => ih (edge_cycG e)

/-- No walk of the cyclic registry's graph reaches dialect 2 from
dialect 0: the target is unreachable, i.e. no route exists. -/
theorem no_walk_cycG_02 : ¬ ∃ t, Walk cycG 0 2 t := by
  rintro ⟨t, hw⟩
  rcases walk_cycG_ends hw (Or.inl rfl) with h | h <;>
    exact absurd h (by decide)

/-- C6 counterexample: on the cyclic registry no route from dialect 0 to
dialect 2 exists and no translation is supplied, yet `translate` does
not raise `TranslationNotFoundError` — it never returns at all: every
fuel bound is exhausted (in Python, the unbounded mutual recursion of
`_find_edges` ends in a `RecursionError`). -/
theorem translate_unreachable_cyclic_never_raises :
    (¬ ∃ t, Walk cycG 0 2 t) ∧
    (¬ ∃ fuel out, translate fuel (fun s => [s.length])
        (fun n : Nat => toString n) "select 1" 0 2 cycM none = some out) := by
  refine ⟨no_walk_cycG_02, ?_⟩
  rintro ⟨fuel, out, h⟩
  have hfe : find_edges fuel cycG 0 2 [] = none :=
    (find_edges_cycle_exhausts fuel []).1
  have hroute : find_route fuel (adj cycM) 0 2 = none := by
    show find_route fuel cycG 0 2 = none
    simp [find_route, hfe]
  simp [translate, find_translation, hroute] at h

/-- C6 amended (general positive part): whenever the graph is acyclic,
an unreachable target makes the route search terminate with `None` and
makes `translate` (with no supplied translation) raise
`TranslationNotFoundError`. -/
theorem translate_no_route_acyclic_raises {δ σ : Type} [DecidableEq δ] :
    ∀ (m : TransMapping δ σ) (src tgt : δ) (f : δ → Nat)
      (parse : String → List σ) (render : σ → String) (sql : String),
      rankOk f (adj m) = true →
      (¬ ∃ t, Walk (adj m) src tgt t) →
      ∃ fuel, find_route fuel (adj m) src tgt = some none ∧
        translate fuel parse render sql src tgt m none
          = some (.error .notFound) := by
  intro m src tgt f parse render sql hok hunreach
  have hbound : ∀ t, Chain (adj m) src t → t.length ≤ f src :=
    fun t hc => chain_length_le_rank hok hc
  have hne := find_edges_adequate (adj m) tgt (f src) src [] hbound
  obtain ⟨r, hr⟩ := Option.ne_none_iff_exists'.mp hne
  obtain ⟨ha, _, _⟩ := find_edges_spec (adj m) tgt (f src + 1) src [] r hr
  cases r with
  | some p =>
    obtain ⟨t, _, hw⟩ := ha p rfl
    exact absurd ⟨t, hw⟩ hunreach
  | none =>
    have hroute : find_route (f src + 1) (adj m) src tgt = some none := by
      simp [find_route, hr]
    exact ⟨f src + 1, hroute, by simp [translate, find_translation, hroute]⟩

/-- Every edge of the one-edge registry's graph leads to dialect 1. -/
theorem edge_adj_reg1 {a b : Nat} (h : edgeOf (adj reg1) a b) : b = 1 := by
  obtain ⟨ns, hl, hb⟩ := h
  have hG : adj reg1 = [(0, [1])] := rfl
  rw [hG] at hl
  simp only [alookup] at hl
  split at hl
  · injection hl with h1
    subst h1
    simpa using hb
  · cases hl

/-- A walk of the one-edge registry's graph ends where it starts or at
dialect 1. -/
theorem walk_adj_reg1_ends :
    ∀ {a c : Nat} {t : List Nat}, Walk (adj reg1) a c t →
      c = a ∨ c = 1 := by
  intro a c t h
  induction h with
  | nil => exact Or.inl rfl
  | cons e _ ih =>
    rcases ih with h1 | h1
    · right; rw [h1, edge_adj_reg1 e]
    · right; exact h1

/-- Dialect 2 is unreachable from dialect 0 in the one-edge registry. -/
theorem no_walk_adj_reg1_02 : ¬ ∃ t, Walk (adj reg1) 0 2 t := by
  rintro ⟨t, hw⟩
  rcases walk_adj_reg1_ends hw with h | h <;> exact absurd h (by decide)

/-- C6 witness: the registry holding only 0 → 1 is acyclic and dialect 2
is unreachable from dialect 0, so the route search returns `None` and
`translate` raises `TranslationNotFoundError`. -/
theorem translate_no_route_acyclic_raises_witness :
    ∃ fuel, find_route fuel (adj reg1) 0 2 = some none ∧
      translate fuel (fun s => [s.length]) (fun n : Nat => toString n)
        "select 1" 0 2 reg1 none = some (.error .notFound) :=
  translate_no_route_acyclic_raises reg1 0 2
    (fun a => if a = 0 then 1 else 0) (fun s => [s.length])
    (fun n : Nat => toString n) "select 1" (by decide) no_walk_adj_reg1_02

/-- A composite's translate is `chain_func` over its constituents'
translate functions, exactly as translate.py line 59 writes it. -/
theorem translate_composite_eq_chain {δ σ : Type} (a b : δ)
    (ts : List (TranslationB δ σ)) (s : σ) :
    (TranslationB.composite a b ts).translate s
      = chain_func s (ts.map (fun t => t.translate)) := by
  simp only [TranslationB.translate]
  congr 1
  exact List.attach_map_val ts (fun t => t.translate)

/-- C8.  Translating a statement through a composite translation equals
applying the composed steps manually in sequence, each step receiving
the previous step's output — hence also the rendered texts agree. -/
theorem composite_translate_eq_sequential {δ σ : Type} :
    ∀ (src tgt : δ) (ts : List (TranslationB δ σ)) (s : σ),
      (TranslationB.composite src tgt ts).translate s
        = applyStepsInSequence ts s := by
  intro src tgt ts s
  induction ts generalizing s with
  | nil => rw [translate_composite_eq_chain]; rfl
  | cons t rest ih =>
    rw [translate_composite_eq_chain, List.map_cons]
    show chain_func (t.translate s) (rest.map (fun u => u.translate))
      = applyStepsInSequence rest (t.translate s)
    rw [← translate_composite_eq_chain src tgt rest (t.translate s)]
    exact ih (t.translate s)

/-- C9.  When the route search finds a route: a one-hop route makes
`find_translation` return that hop's registered translation unwrapped,
and a longer route makes it return a composite translation whose
constituents are the hops' registered translations in route order. -/
theorem find_translation_route_shape {δ σ : Type} [DecidableEq δ] :
    ∀ (fuel : Nat) (m : TransMapping δ σ) (src tgt : δ)
      (route : List (δ × δ)),
      find_route fuel (adj m) src tgt = some (some route) →
      (∀ s t tr, route = [(s, t)] → get_translation m s t = some tr →
        find_translation fuel src tgt m = some (.found tr)) ∧
      (∀ trs, 1 < route.length → lookupRoute m route = some trs →
        find_translation fuel src tgt m
          = some (.found (.composite src tgt trs))) := by
  intro fuel m src tgt route hroute
  constructor
  · rintro s t tr rfl hget
    simp [find_translation, hroute, hget]
  · intro trs hlen hlook
    match route, hlen, hlook with
    | (s1, t1) :: (s2, t2) :: rest, _, hlook =>
      simp only [find_translation, hroute, hlook]

/-- C9 witness: in the chain registry 0 → 1 → 2 the route from 0 to 2
has the two hops (0,1), (1,2), and `find_translation` wraps their
registered translations, in order, in a composite. -/
theorem find_translation_route_shape_witness :
    find_translation 3 0 2 reg2 = some (.found (.composite 0 2 [t01, t12])) :=
  (find_translation_route_shape 3 reg2 0 2 [(0, 1), (1, 2)] (by rfl)).2
    [t01, t12] (by decide) (by rfl)

end Sqltrans
